import Mathlib

/-!
Verification of the linux-loader ELF kernel loader (`src/loader/mod.rs`).

The development shallowly embeds `ElfLoader::load_kernel` and `load_cmdline`.
Machine integers (`u64`) are modelled as `Nat` with explicit `% 2^64` where the
Rust code can wrap, and `checked_add` as an explicit bound test.  The guest
memory object and the raw-byte structure reader are external collaborators
(`vm_memory`, `mod elf`, `mod struct_util` are not part of the loader source);
they are modelled from the spec's interface description, see the doc comments
below.  Guest memory additionally records a log of the writes performed, so
that "no write happened" and "a copy targeted address a" are observable.
-/

namespace LinuxLoader

/-- `2^64`, the modulus of the Rust `u64` arithmetic used throughout. -/
def U64 : Nat := 2 ^ 64

/-! ### ELF constants and records

Modelled from the spec: the repository declares `mod elf` (a generated copy of
the standard ELF definitions) which is not under `src/`; the spec fixes the
magic bytes `0x7F 'E' 'L' 'F'`, the little-endian data-encoding byte and the
standard fixed ELF64 record layouts (sizes 64 and 56). -/

def ELFMAG0 : Nat := 0x7f
def ELFMAG1 : Nat := 0x45
def ELFMAG2 : Nat := 0x4c
def ELFMAG3 : Nat := 0x46
def EI_MAG0 : Nat := 0
def EI_MAG1 : Nat := 1
def EI_MAG2 : Nat := 2
def EI_MAG3 : Nat := 3
def EI_DATA : Nat := 5
def ELFDATA2LSB : Nat := 1
def PT_LOAD : Nat := 1

/-- `mem::size_of::<elf::Elf64_Ehdr>()`: the fixed ELF64 header size. -/
def sizeofElf64Ehdr : Nat := 64

/-- `mem::size_of::<elf::Elf64_Phdr>()`: the fixed ELF64 program-header record size. -/
def sizeofElf64Phdr : Nat := 56

/-- The fields of `elf::Elf64_Ehdr` consulted by the loader.  `e_ident` is the
16-byte identification array (indexed with `List.getD`; the Rust array always
has 16 entries). -/
structure Elf64_Ehdr where
  e_ident : List Nat
  e_entry : Nat
  e_phoff : Nat
  e_phentsize : Nat
  e_phnum : Nat
deriving DecidableEq

/-- `e_ident[i]`: indexing into the 16-byte identification array (the Rust
array access `ehdr.e_ident[i as usize]`). -/
def Elf64_Ehdr.identAt (e : Elf64_Ehdr) (i : Nat) : Nat :=
  e.e_ident.getD i 0

/-- The fields of `elf::Elf64_Phdr` consulted by the loader. -/
structure Elf64_Phdr where
  p_type : Nat
  p_offset : Nat
  p_paddr : Nat
  p_filesz : Nat
  p_memsz : Nat
deriving DecidableEq

/-- The error enumeration of `src/loader/mod.rs` (`enum Error`). -/
inductive Error where
  | BigEndianElfOnLittle
  | CommandLineCopy
  | CommandLineOverflow
  | InvalidElfMagicNumber
  | InvalidProgramHeaderSize
  | InvalidProgramHeaderOffset
  | InvalidProgramHeaderAddress
  | InvalidEntryAddress
  | InvalidKernelStartAddress
  | InitrdImageSizeTooLarge
  | ReadElfHeader
  | ReadKernelImage
  | ReadProgramHeader
  | ReadInitrdImage
  | SeekKernelStart
  | SeekElfStart
  | SeekProgramHeader
  | SeekInitrdImage
deriving DecidableEq

/-- `u64::checked_add`: `some (a + b)` unless the 64-bit addition would wrap. -/
def checkedAdd (a b : Nat) : Option Nat :=
  if a + b < U64 then some (a + b) else none

/-- Modelled from the spec: the byte-source capability (`F: Read + Seek`
together with the structure reader of `mod struct_util`, which is not under
`src/`).  The loader always seeks to an absolute offset before reading, so the
source is modelled by what each seek-then-read returns: `seekOk o` says the
seek to absolute offset `o` succeeds, `readEhdrAt o` is the ELF header record
obtained by `read_struct` at offset `o` (`none` when the read fails),
`readPhdrsAt o n` is the table of `n` program-header records obtained by
`read_struct_slice` at offset `o`, and `readBytesAt o n` is the `n` raw bytes
starting at offset `o` (`none` when the source is exhausted early). -/
structure ByteSource where
  seekOk : Nat → Bool
  readEhdrAt : Nat → Option Elf64_Ehdr
  readPhdrsAt : Nat → Nat → Option (List Elf64_Phdr)
  readBytesAt : Nat → Nat → Option (List Nat)

/-- Modelled from the spec: the guest-memory capability (`vm_memory`'s
`GuestMemoryMmap`, an external collaborator).  One contiguous region of
`contents.length` bytes starting at guest address `start`; `end_addr` is the
exclusive upper bound `start + contents.length`.  `log` is a ghost trace of
the successful writes `(address, bytes)`, so that theorems can observe which
writes a loader call performed; it does not influence behaviour. -/
structure GuestMem where
  start : Nat
  contents : List Nat
  log : List (Nat × List Nat)
deriving DecidableEq

/-- The exclusive end address of the guest memory region (`end_addr`). -/
def GuestMem.endAddr (g : GuestMem) : Nat := g.start + g.contents.length

/-- The behavioural part of a guest memory (everything except the ghost log). -/
def GuestMem.core (g : GuestMem) : Nat × List Nat := (g.start, g.contents)

/-- Overwrite the sublist of `l` starting at index `i` with `bs`. -/
def writeList : List Nat → Nat → List Nat → List Nat
  | l, _, [] => l
  | [], _, _ => []
  | _ :: l, 0, b :: bs => b :: writeList l 0 bs
  | a :: l, n + 1, bs => a :: writeList l n bs

/-- Modelled from the spec: `write_slice`, the bounds-checked byte-slice write
of the guest-memory capability — it fails (returns `none`) iff some byte of
the slice falls outside the mapped region, and otherwise stores the bytes and
records the write in the ghost log. -/
def GuestMem.writeSlice (g : GuestMem) (addr : Nat) (bs : List Nat) : Option GuestMem :=
  if g.start ≤ addr ∧ addr + bs.length ≤ g.endAddr then
    some { start := g.start,
           contents := writeList g.contents (addr - g.start) bs,
           log := g.log ++ [(addr, bs)] }
  else none

/-- Modelled from the spec: `read_exact_from(addr, source, count)` — copy
exactly `count` bytes from the byte source (positioned at offset `off`) into
guest memory at `addr`; fails if the source is exhausted early or the target
range is not entirely inside the region. -/
def GuestMem.readExactFrom (g : GuestMem) (addr : Nat) (img : ByteSource)
    (off count : Nat) : Option GuestMem :=
  match img.readBytesAt off count with
  | none => none
  | some bs => g.writeSlice addr bs

/-- The segment-loading loop of `ElfLoader::load_kernel` (the `for phdr in
&phdrs` loop): skips every entry with `p_type != PT_LOAD || p_filesz == 0`,
seeks to `p_offset`, computes the target address (checked addition of the
optional `kernel_start` base), copies `p_filesz` bytes into guest memory and
overwrites the running `kernel_end` with target `+ p_memsz` (wrapping `u64`
addition).  Errors carry the guest memory as mutated so far. -/
def loadSegs (kstart : Option Nat) (img : ByteSource) :
    List Elf64_Phdr → Nat → GuestMem → Except (Error × GuestMem) (Nat × GuestMem)
  | [], kend, g => .ok (kend, g)
  | ph :: rest, kend, g =>
    if ph.p_type ≠ PT_LOAD ∨ ph.p_filesz = 0 then
      loadSegs kstart img rest kend g
    else if img.seekOk ph.p_offset = false then
      .error (.SeekKernelStart, g)
    else
      match (match kstart with
             | some s => checkedAdd s ph.p_paddr
             | none => some ph.p_paddr) with
      | none => .error (.InvalidProgramHeaderAddress, g)
      | some mo =>
        match g.readExactFrom mo img ph.p_offset ph.p_filesz with
        | none => .error (.ReadKernelImage, g)
        | some g2 => loadSegs kstart img rest ((mo + ph.p_memsz) % U64) g2

/-- The second half of `ElfLoader::load_kernel`, entered once all header
sanity checks passed: compute `kernel_loaded_addr` (unchecked, i.e. wrapping,
addition of the base when present), seek to the program-header table, read it
and run the segment loop starting from `kernel_end = 0`. -/
def loadPhase2 (gm : GuestMem) (kernel_start : Option Nat) (img : ByteSource)
    (ehdr : Elf64_Ehdr) : Except Error (Nat × Nat) × GuestMem :=
  let kernel_loaded_addr : Nat :=
    match kernel_start with
    | some s => (s + ehdr.e_entry) % U64
    | none => ehdr.e_entry
  if img.seekOk ehdr.e_phoff = false then (.error .SeekProgramHeader, gm)
  else
    match img.readPhdrsAt ehdr.e_phoff ehdr.e_phnum with
    | none => (.error .ReadProgramHeader, gm)
    | some phdrs =>
      match loadSegs kernel_start img phdrs 0 gm with
      | .error (e, g) => (.error e, g)
      | .ok (kend, g) => (.ok (kernel_loaded_addr, kend), g)

/-- `ElfLoader::load_kernel`: seek to the image start, read the ELF header,
run the sanity checks in source order, then load the segments.  The result is
the Rust `Result<(GuestAddress, GuestUsize)>` paired with the guest memory
after the call (the Rust code mutates it in place). -/
def load_kernel (gm : GuestMem) (kernel_start : Option Nat) (img : ByteSource)
    (lowest_kernel_start : Option Nat) : Except Error (Nat × Nat) × GuestMem :=
  if img.seekOk 0 = false then (.error .SeekElfStart, gm)
  else
    match img.readEhdrAt 0 with
    | none => (.error .ReadElfHeader, gm)
    | some ehdr =>
      if ehdr.identAt EI_MAG0 ≠ ELFMAG0 ∨ ehdr.identAt EI_MAG1 ≠ ELFMAG1
          ∨ ehdr.identAt EI_MAG2 ≠ ELFMAG2 ∨ ehdr.identAt EI_MAG3 ≠ ELFMAG3 then
        (.error .InvalidElfMagicNumber, gm)
      else if ehdr.identAt EI_DATA ≠ ELFDATA2LSB then
        (.error .BigEndianElfOnLittle, gm)
      else if ehdr.e_phentsize ≠ sizeofElf64Phdr then
        (.error .InvalidProgramHeaderSize, gm)
      else if ehdr.e_phoff < sizeofElf64Ehdr then
        (.error .InvalidProgramHeaderOffset, gm)
      else
        match lowest_kernel_start with
        | some lo =>
          if ehdr.e_entry < lo then (.error .InvalidEntryAddress, gm)
          else loadPhase2 gm kernel_start img ehdr
        | none => loadPhase2 gm kernel_start img ehdr

/-- `load_cmdline`: write the command line (`cmdline` are the bytes excluding
the null terminator, as `CStr::to_bytes` returns them) to `guest_addr`.  Empty
command lines return immediately; otherwise the exclusive end address is
computed with `checked_add` (the `+ 1` is the terminator) and compared against
the region end, and the bytes including the terminator are written with
`write_slice`. -/
def load_cmdline (gm : GuestMem) (guest_addr : Nat) (cmdline : List Nat) :
    Except Error Unit × GuestMem :=
  let len := cmdline.length
  if len = 0 then (.ok (), gm)
  else
    match checkedAdd guest_addr ((len + 1) % U64) with
    | none => (.error .CommandLineOverflow, gm)
    | some e =>
      if e > gm.endAddr then (.error .CommandLineOverflow, gm)
      else
        match gm.writeSlice guest_addr (cmdline ++ [0]) with
        | none => (.error .CommandLineCopy, gm)
        | some g2 => (.ok (), g2)

/-! ### Spec-side derived notions -/

/-- A program-header entry the loader materialises: `p_type = PT_LOAD` and a
nonzero file size. -/
def eligible (p : Elf64_Phdr) : Bool :=
  decide (p.p_type = PT_LOAD) && decide (p.p_filesz ≠ 0)

/-- The target guest address of a processed segment as the spec describes it:
base plus physical address when a base is supplied, the physical address
verbatim otherwise. -/
def target (kstart : Option Nat) (p : Elf64_Phdr) : Nat :=
  match kstart with
  | some s => s + p.p_paddr
  | none => p.p_paddr

/-- The exclusive end addresses (`target + p_memsz`, wrapping) of the
processed LOAD segments, in file order. -/
def processedEnds (kstart : Option Nat) (phdrs : List Elf64_Phdr) : List Nat :=
  (phdrs.filter eligible).map (fun p => (target kstart p + p.p_memsz) % U64)

/-- The writes the segment loop performs, one per processed LOAD segment. -/
def segLog (kstart : Option Nat) (img : ByteSource) (phdrs : List Elf64_Phdr) :
    List (Nat × List Nat) :=
  (phdrs.filter eligible).map
    (fun p => (target kstart p, (img.readBytesAt p.p_offset p.p_filesz).getD []))

/-- The spec's words for the second component of a successful `load_kernel`:
the maximum of `target + p_memsz` over all processed LOAD segments, `0` when
none were processed. -/
def specMaxOccupied (kstart : Option Nat) (phdrs : List Elf64_Phdr) : Nat :=
  (processedEnds kstart phdrs).foldr max 0

/-- The entry address `load_kernel` returns (`kernel_loaded_addr`): the base
plus the header's entry value (wrapping, unchecked addition) when a base was
supplied, the header's raw entry value otherwise. -/
def entryAddr (ks : Option Nat) (e : Elf64_Ehdr) : Nat :=
  match ks with
  | some s => (s + e.e_entry) % U64
  | none => e.e_entry

/-- The failure condition of the magic-number check, exactly as the code
tests it. -/
def magicMismatch (e : Elf64_Ehdr) : Prop :=
  e.identAt EI_MAG0 ≠ ELFMAG0 ∨ e.identAt EI_MAG1 ≠ ELFMAG1
    ∨ e.identAt EI_MAG2 ≠ ELFMAG2 ∨ e.identAt EI_MAG3 ≠ ELFMAG3

instance (e : Elf64_Ehdr) : Decidable (magicMismatch e) := by
  unfold magicMismatch; infer_instance

/-! ### Concrete fixtures for witnesses and counterexamples -/

/-- A well-formed ELF64-LE header: entry `0x100`, program headers at offset
64, record size 56, two entries. -/
def ehdrOk : Elf64_Ehdr :=
  ⟨[0x7f, 0x45, 0x4c, 0x46, 2, 1, 0, 0, 0, 0, 0, 0, 0, 0, 0, 0], 0x100, 64, 56, 2⟩

/-- A LOAD segment occupying `[30, 80)` (file size 1, memory size 50). -/
def phA : Elf64_Phdr := ⟨1, 200, 30, 1, 50⟩

/-- A LOAD segment occupying `[0, 10)` (file size 1, memory size 10), placed
after `phA` in file order although it ends lower. -/
def phB : Elf64_Phdr := ⟨1, 201, 0, 1, 10⟩

/-- An image whose two LOAD segments appear in decreasing address order. -/
def imgEx : ByteSource :=
  { seekOk := fun _ => true
    readEhdrAt := fun o => if o = 0 then some ehdrOk else none
    readPhdrsAt := fun o n => if o = 64 ∧ n = 2 then some [phA, phB] else none
    readBytesAt := fun _ n => if n = 1 then some [7] else none }

/-- The same header with no program-header entries. -/
def ehdrNoSegs : Elf64_Ehdr :=
  ⟨[0x7f, 0x45, 0x4c, 0x46, 2, 1, 0, 0, 0, 0, 0, 0, 0, 0, 0, 0], 0x100, 64, 56, 0⟩

/-- An image with a valid header and an empty program-header table. -/
def imgNoSegs : ByteSource :=
  { seekOk := fun _ => true
    readEhdrAt := fun o => if o = 0 then some ehdrNoSegs else none
    readPhdrsAt := fun o n => if o = 64 ∧ n = 0 then some [] else none
    readBytesAt := fun _ _ => none }

/-- A header whose first magic byte is wrong (entry value 5). -/
def ehdrBadMagic : Elf64_Ehdr :=
  ⟨[0, 0x45, 0x4c, 0x46, 2, 1, 0, 0, 0, 0, 0, 0, 0, 0, 0, 0], 5, 64, 56, 0⟩

/-- An image carrying only the bad-magic header. -/
def imgBadMagic : ByteSource :=
  { seekOk := fun _ => true
    readEhdrAt := fun o => if o = 0 then some ehdrBadMagic else none
    readPhdrsAt := fun _ _ => none
    readBytesAt := fun _ _ => none }

/-- A 40-byte zero-filled guest memory starting at address 0. -/
def gmEx : GuestMem := ⟨0, List.replicate 40 0, []⟩

/-- The guest memory produced by loading `imgEx` (or `imgMix`) into `gmEx`:
one byte written at 30 (segment `phA`), then one byte at 0 (segment `phB`). -/
def gmExFinal : GuestMem :=
  ⟨0, writeList (writeList (List.replicate 40 0) 30 [7]) 0 [7],
    [(30, [7]), (0, [7])]⟩

/-- The valid header again, now announcing three program-header entries. -/
def ehdrMix : Elf64_Ehdr :=
  ⟨[0x7f, 0x45, 0x4c, 0x46, 2, 1, 0, 0, 0, 0, 0, 0, 0, 0, 0, 0], 0x100, 64, 56, 3⟩

/-- A LOAD entry with file size 0 (pure zero-fill): skipped by the loader. -/
def phC : Elf64_Phdr := ⟨1, 300, 50, 0, 400⟩

/-- An image with three program-header entries of which only two are
materialised (`phC` has file size 0). -/
def imgMix : ByteSource :=
  { seekOk := fun _ => true
    readEhdrAt := fun o => if o = 0 then some ehdrMix else none
    readPhdrsAt := fun o n => if o = 64 ∧ n = 3 then some [phA, phC, phB] else none
    readBytesAt := fun _ n => if n = 1 then some [7] else none }

/-! ### Inversion lemmas -/

/-- Inverting a successful `loadPhase2`. -/
theorem loadPhase2_ok_inv {gm : GuestMem} {ks : Option Nat} {img : ByteSource}
    {ehdr : Elf64_Ehdr} {entry kend : Nat} {g2 : GuestMem}
    (h : loadPhase2 gm ks img ehdr = (Except.ok (entry, kend), g2)) :
    img.seekOk ehdr.e_phoff = true ∧
      ∃ phdrs, img.readPhdrsAt ehdr.e_phoff ehdr.e_phnum = some phdrs ∧
        entry = entryAddr ks ehdr ∧
        loadSegs ks img phdrs 0 gm = Except.ok (kend, g2) := by
  by_cases hs1 : img.seekOk ehdr.e_phoff = true
  swap
  · simp [loadPhase2, hs1] at h
  rcases hrp : img.readPhdrsAt ehdr.e_phoff ehdr.e_phnum with _ | phdrs
  · simp [loadPhase2, hs1, hrp] at h
  rcases hls : loadSegs ks img phdrs 0 gm with ⟨e, g⟩ | ⟨kend2, g3⟩
  · simp [loadPhase2, hs1, hrp, hls] at h
  · simp [loadPhase2, hs1, hrp, hls] at h
    obtain ⟨⟨h1, h2⟩, h3⟩ := h
    subst h2
    subst h3
    exact ⟨hs1, phdrs, rfl, h1.symm, hls⟩

/-- Inverting a successful `load_kernel`: the header was read, every sanity
check passed, the program headers were read and the segment loop succeeded. -/
theorem load_kernel_ok_inv {gm : GuestMem} {ks : Option Nat} {img : ByteSource}
    {lo : Option Nat} {entry kend : Nat} {g2 : GuestMem}
    (h : load_kernel gm ks img lo = (Except.ok (entry, kend), g2)) :
    ∃ ehdr, img.readEhdrAt 0 = some ehdr ∧
      ¬ magicMismatch ehdr ∧
      ehdr.identAt EI_DATA = ELFDATA2LSB ∧
      ehdr.e_phentsize = sizeofElf64Phdr ∧
      sizeofElf64Ehdr ≤ ehdr.e_phoff ∧
      (∀ lo2, lo = some lo2 → lo2 ≤ ehdr.e_entry) ∧
      ∃ phdrs, img.readPhdrsAt ehdr.e_phoff ehdr.e_phnum = some phdrs ∧
        entry = entryAddr ks ehdr ∧
        loadSegs ks img phdrs 0 gm = Except.ok (kend, g2) := by
  by_cases hs0 : img.seekOk 0 = true
  swap
  · simp [load_kernel, hs0] at h
  rcases hre : img.readEhdrAt 0 with _ | ehdr
  · simp [load_kernel, hs0, hre] at h
  by_cases hmag : magicMismatch ehdr
  · rw [magicMismatch] at hmag
    simp [load_kernel, hs0, hre, hmag] at h
  have hmag2 := hmag
  rw [magicMismatch] at hmag2
  by_cases hdata : ehdr.identAt EI_DATA = ELFDATA2LSB
  swap
  · simp [load_kernel, hs0, hre, hmag2, hdata] at h
  by_cases hps : ehdr.e_phentsize = sizeofElf64Phdr
  swap
  · simp [load_kernel, hs0, hre, hmag2, hdata, hps] at h
  by_cases hpo : ehdr.e_phoff < sizeofElf64Ehdr
  · simp [load_kernel, hs0, hre, hmag2, hdata, hps, hpo] at h
  have hph : loadPhase2 gm ks img ehdr = (Except.ok (entry, kend), g2) ∧
      ∀ lo2, lo = some lo2 → lo2 ≤ ehdr.e_entry := by
    rcases lo with _ | lo2
    · refine ⟨?_, by intro lo2 hlo2; cases hlo2⟩
      simpa [load_kernel, hs0, hre, hmag2, hdata, hps, hpo] using h
    · by_cases hent : ehdr.e_entry < lo2
      · simp [load_kernel, hs0, hre, hmag2, hdata, hps, hpo, hent] at h
      · refine ⟨?_, ?_⟩
        · simpa [load_kernel, hs0, hre, hmag2, hdata, hps, hpo, hent] using h
        · intro lo3 hlo3
          obtain rfl : lo2 = lo3 := Option.some.injEq .. ▸ hlo3
          omega
  obtain ⟨hph2, hlo⟩ := hph
  obtain ⟨hs1, phdrs, hrp, he, hls⟩ := loadPhase2_ok_inv hph2
  exact ⟨ehdr, rfl, hmag, hdata, hps, Nat.le_of_not_lt hpo, hlo, phdrs, hrp, he, hls⟩

/-! ### Claim theorems -/

/-- C5: the ELF header sanity checks run in the fixed source order — magic
number, endianness byte, program-header entry size, program-header offset,
optional entry-address floor — each failing with its own error kind, the first
failing check deciding the result regardless of the later fields, and the five
error kinds are pairwise distinct. -/
theorem load_kernel_check_order (gm : GuestMem) (ks : Option Nat) (img : ByteSource)
    (lo : Option Nat) (ehdr : Elf64_Ehdr)
    (hs0 : img.seekOk 0 = true) (hre : img.readEhdrAt 0 = some ehdr) :
    (magicMismatch ehdr →
      load_kernel gm ks img lo = (Except.error Error.InvalidElfMagicNumber, gm)) ∧
    (¬ magicMismatch ehdr → ehdr.identAt EI_DATA ≠ ELFDATA2LSB →
      load_kernel gm ks img lo = (Except.error Error.BigEndianElfOnLittle, gm)) ∧
    (¬ magicMismatch ehdr → ehdr.identAt EI_DATA = ELFDATA2LSB →
      ehdr.e_phentsize ≠ sizeofElf64Phdr →
      load_kernel gm ks img lo = (Except.error Error.InvalidProgramHeaderSize, gm)) ∧
    (¬ magicMismatch ehdr → ehdr.identAt EI_DATA = ELFDATA2LSB →
      ehdr.e_phentsize = sizeofElf64Phdr → ehdr.e_phoff < sizeofElf64Ehdr →
      load_kernel gm ks img lo = (Except.error Error.InvalidProgramHeaderOffset, gm)) ∧
    (¬ magicMismatch ehdr → ehdr.identAt EI_DATA = ELFDATA2LSB →
      ehdr.e_phentsize = sizeofElf64Phdr → sizeofElf64Ehdr ≤ ehdr.e_phoff →
      ∀ lo2, lo = some lo2 → ehdr.e_entry < lo2 →
      load_kernel gm ks img lo = (Except.error Error.InvalidEntryAddress, gm)) ∧
    [Error.InvalidElfMagicNumber, Error.BigEndianElfOnLittle,
      Error.InvalidProgramHeaderSize, Error.InvalidProgramHeaderOffset,
      Error.InvalidEntryAddress].Pairwise (· ≠ ·) := by
  refine ⟨?_, ?_, ?_, ?_, ?_, by decide⟩
  · intro hmag
    rw [magicMismatch] at hmag
    simp [load_kernel, hs0, hre, hmag]
  · intro hmag hdata
    rw [magicMismatch] at hmag
    simp [load_kernel, hs0, hre, hmag, hdata]
  · intro hmag hdata hps
    rw [magicMismatch] at hmag
    simp [load_kernel, hs0, hre, hmag, hdata, hps]
  · intro hmag hdata hps hpo
    rw [magicMismatch] at hmag
    simp [load_kernel, hs0, hre, hmag, hdata, hps, hpo]
  · intro hmag hdata hps hpo lo2 hlo hent
    rw [magicMismatch] at hmag
    subst hlo
    simp [load_kernel, hs0, hre, hmag, hdata, hps, Nat.not_lt.mpr hpo, hent]

theorem load_kernel_check_order_witness :
    load_kernel gmEx none imgBadMagic none =
      (Except.error Error.InvalidElfMagicNumber, gmEx) := by
  have h := load_kernel_check_order gmEx none imgBadMagic none ehdrBadMagic
    (by rfl) (by rfl)
  exact h.1 (by decide)

/-- C3 counterexample: with a bad-magic image whose header carries entry
value 5 and a lowest-permitted-entry-address of 6 (strictly above the entry),
`load_kernel` fails with `InvalidElfMagicNumber`, not `InvalidEntryAddress`:
the claim's unconditional quantification over images is false. -/
theorem load_kernel_entry_too_low_cex :
    imgBadMagic.readEhdrAt 0 = some ehdrBadMagic ∧
    ehdrBadMagic.e_entry < 6 ∧
    load_kernel gmEx none imgBadMagic (some 6) =
      (Except.error Error.InvalidElfMagicNumber, gmEx) ∧
    Error.InvalidElfMagicNumber ≠ Error.InvalidEntryAddress := by
  exact ⟨rfl, by decide, by rfl, by decide⟩

/-- C3 (amended): for every image whose header reads successfully and passes
the magic, endianness, program-header-size and program-header-offset checks,
a supplied lowest-permitted-entry-address strictly above the header's entry
value makes `load_kernel` fail with `InvalidEntryAddress` and return the guest
memory unchanged (no write was performed: contents and write log are intact). -/
theorem load_kernel_entry_too_low (gm : GuestMem) (ks : Option Nat) (img : ByteSource)
    (ehdr : Elf64_Ehdr) (lo2 : Nat)
    (hs0 : img.seekOk 0 = true) (hre : img.readEhdrAt 0 = some ehdr)
    (hmag : ¬ magicMismatch ehdr)
    (hdata : ehdr.identAt EI_DATA = ELFDATA2LSB)
    (hps : ehdr.e_phentsize = sizeofElf64Phdr)
    (hpo : sizeofElf64Ehdr ≤ ehdr.e_phoff)
    (hent : ehdr.e_entry < lo2) :
    load_kernel gm ks img (some lo2) = (Except.error Error.InvalidEntryAddress, gm) := by
  rw [magicMismatch] at hmag
  simp [load_kernel, hs0, hre, hmag, hdata, hps, Nat.not_lt.mpr hpo, hent]

theorem load_kernel_entry_too_low_witness :
    load_kernel gmEx none imgEx (some 257) =
      (Except.error Error.InvalidEntryAddress, gmEx) :=
  load_kernel_entry_too_low gmEx none imgEx ehdrOk 257 (by rfl) (by rfl)
    (by decide) (by decide) (by decide) (by decide) (by decide)

/-- C4: a successful `load_kernel` returns, as its entry address, the base
plus the header's raw entry value (the unchecked, hence wrapping modulo
`2^64`, addition) when a base address was supplied, and the header's raw
entry value verbatim when no base was supplied. -/
theorem load_kernel_entry_value {gm : GuestMem} {ks : Option Nat} {img : ByteSource}
    {lo : Option Nat} {entry kend : Nat} {g2 : GuestMem}
    (h : load_kernel gm ks img lo = (Except.ok (entry, kend), g2)) :
    ∃ ehdr, img.readEhdrAt 0 = some ehdr ∧
      (∀ s, ks = some s → entry = (s + ehdr.e_entry) % U64) ∧
      (ks = none → entry = ehdr.e_entry) := by
  obtain ⟨ehdr, hre, _, _, _, _, _, _, _, he, _⟩ := load_kernel_ok_inv h
  refine ⟨ehdr, hre, ?_, ?_⟩
  · intro s hks
    subst hks
    simpa [entryAddr] using he
  · intro hks
    subst hks
    simpa [entryAddr] using he

theorem load_kernel_entry_value_witness :
    ∃ ehdr, imgNoSegs.readEhdrAt 0 = some ehdr ∧ (256 : Nat) = ehdr.e_entry := by
  have hconc : load_kernel gmEx none imgNoSegs none =
      (Except.ok (256, 0), gmEx) := by rfl
  obtain ⟨ehdr, hre, _, hnone⟩ := load_kernel_entry_value hconc
  exact ⟨ehdr, hre, hnone rfl⟩

/-! ### Properties of the segment loop -/

theorem eligible_eq_false_iff (p : Elf64_Phdr) :
    eligible p = false ↔ (p.p_type ≠ PT_LOAD ∨ p.p_filesz = 0) := by
  simp [eligible]
  tauto

/-- Inverting a successful `read_exact_from`. -/
theorem readExactFrom_ok {g : GuestMem} {addr : Nat} {img : ByteSource} {off count : Nat}
    {g2 : GuestMem} (h : g.readExactFrom addr img off count = some g2) :
    ∃ bs, img.readBytesAt off count = some bs ∧
      g2.start = g.start ∧
      g2.contents = writeList g.contents (addr - g.start) bs ∧
      g2.log = g.log ++ [(addr, bs)] ∧
      g.start ≤ addr ∧ addr + bs.length ≤ g.endAddr := by
  unfold GuestMem.readExactFrom at h
  rcases hrb : img.readBytesAt off count with _ | bs
  · simp only [hrb] at h
    simp at h
  · simp only [hrb, GuestMem.writeSlice] at h
    by_cases hcond : g.start ≤ addr ∧ addr + bs.length ≤ g.endAddr
    · rw [if_pos hcond] at h
      injection h with h2
      subst h2
      exact ⟨bs, rfl, rfl, rfl, rfl, hcond.1, hcond.2⟩
    · rw [if_neg hcond] at h
      simp at h

theorem processedEnds_cons_skip (ks : Option Nat) (ph : Elf64_Phdr)
    (rest : List Elf64_Phdr) (hel : eligible ph = false) :
    processedEnds ks (ph :: rest) = processedEnds ks rest := by
  simp [processedEnds, List.filter_cons, hel]

theorem processedEnds_cons_take (ks : Option Nat) (ph : Elf64_Phdr)
    (rest : List Elf64_Phdr) (hel : eligible ph = true) :
    processedEnds ks (ph :: rest) =
      ((target ks ph + ph.p_memsz) % U64) :: processedEnds ks rest := by
  simp [processedEnds, List.filter_cons, hel]

theorem segLog_cons_skip (ks : Option Nat) (img : ByteSource) (ph : Elf64_Phdr)
    (rest : List Elf64_Phdr) (hel : eligible ph = false) :
    segLog ks img (ph :: rest) = segLog ks img rest := by
  simp [segLog, List.filter_cons, hel]

theorem segLog_cons_take (ks : Option Nat) (img : ByteSource) (ph : Elf64_Phdr)
    (rest : List Elf64_Phdr) (hel : eligible ph = true) :
    segLog ks img (ph :: rest) =
      (target ks ph, (img.readBytesAt ph.p_offset ph.p_filesz).getD []) ::
        segLog ks img rest := by
  simp [segLog, List.filter_cons, hel]

/-- A successful run of the segment loop: the final `kernel_end` is the end
address of the last processed LOAD segment (the initial value if none), the
write log grows by exactly one entry per processed segment at that segment's
target address, the region base is untouched, and with a base address every
processed segment's checked addition stayed below `2^64`. -/
theorem loadSegs_ok_spec (ks : Option Nat) (img : ByteSource) (phdrs : List Elf64_Phdr) :
    ∀ k0 g k2 g2, loadSegs ks img phdrs k0 g = Except.ok (k2, g2) →
      k2 = (processedEnds ks phdrs).getLastD k0 ∧
      g2.log = g.log ++ segLog ks img phdrs ∧
      g2.start = g.start ∧
      (∀ p ∈ phdrs.filter eligible, ∀ s, ks = some s → s + p.p_paddr < U64) := by
  induction phdrs with
  | nil =>
    intro k0 g k2 g2 h
    simp only [loadSegs] at h
    obtain ⟨h1, h2⟩ : k0 = k2 ∧ g = g2 := by simpa using h
    subst h1
    subst h2
    simp [processedEnds, segLog]
  | cons ph rest ih =>
    intro k0 g k2 g2 h
    by_cases hskip : ph.p_type ≠ PT_LOAD ∨ ph.p_filesz = 0
    · have hel : eligible ph = false := (eligible_eq_false_iff ph).mpr hskip
      simp only [loadSegs, if_pos hskip] at h
      obtain ⟨e1, e2, e3, e4⟩ := ih k0 g k2 g2 h
      refine ⟨?_, ?_, e3, ?_⟩
      · rw [processedEnds_cons_skip _ _ _ hel]
        exact e1
      · rw [segLog_cons_skip _ _ _ _ hel]
        exact e2
      · intro p hp
        refine e4 p ?_
        simpa [List.filter_cons, hel] using hp
    · have hel : eligible ph = true := by
        cases heb : eligible ph
        · exact absurd ((eligible_eq_false_iff ph).mp heb) hskip
        · rfl
      simp only [loadSegs, if_neg hskip] at h
      by_cases hseek : img.seekOk ph.p_offset = false
      · rw [if_pos hseek] at h
        simp at h
      · rw [if_neg hseek] at h
        rcases ks with _ | s
        · rcases hre : g.readExactFrom ph.p_paddr img ph.p_offset ph.p_filesz with _ | g3
          · simp [hre] at h
          · simp only [hre] at h
            obtain ⟨e1, e2, e3, e4⟩ := ih _ g3 k2 g2 h
            obtain ⟨bs, hrb, hstart3, _, hlog3, _, _⟩ := readExactFrom_ok hre
            refine ⟨?_, ?_, ?_, ?_⟩
            · rw [processedEnds_cons_take _ _ _ hel, List.getLastD_cons]
              exact e1
            · rw [e2, hlog3, segLog_cons_take _ _ _ _ hel, hrb]
              simp [target]
            · rw [e3, hstart3]
            · intro p hp s2 hks2
              exact Option.noConfusion hks2
        · by_cases hadd : s + ph.p_paddr < U64
          · simp only [checkedAdd] at h
            rw [if_pos hadd] at h
            rcases hre : g.readExactFrom (s + ph.p_paddr) img ph.p_offset ph.p_filesz with _ | g3
            · simp [hre] at h
            · simp only [hre] at h
              obtain ⟨e1, e2, e3, e4⟩ := ih _ g3 k2 g2 h
              obtain ⟨bs, hrb, hstart3, _, hlog3, _, _⟩ := readExactFrom_ok hre
              refine ⟨?_, ?_, ?_, ?_⟩
              · rw [processedEnds_cons_take _ _ _ hel, List.getLastD_cons]
                exact e1
              · rw [e2, hlog3, segLog_cons_take _ _ _ _ hel, hrb]
                simp [target]
              · rw [e3, hstart3]
              · intro p hp s2 hks2
                injection hks2 with hs2
                subst hs2
                have hp2 : p = ph ∨ (p ∈ rest ∧ eligible p = true) := by
                  simpa [List.filter_cons, hel] using hp
                rcases hp2 with rfl | hp2
                · exact hadd
                · exact e4 p (List.mem_filter.mpr hp2) _ rfl
          · simp only [checkedAdd] at h
            rw [if_neg hadd] at h
            simp at h

/-- A segment prefix that runs successfully can be split off: the loop then
continues on the remaining entries from the reached state. -/
theorem loadSegs_ok_append (ks : Option Nat) (img : ByteSource) (l1 : List Elf64_Phdr) :
    ∀ l2 k0 g k1 g1, loadSegs ks img l1 k0 g = Except.ok (k1, g1) →
      loadSegs ks img (l1 ++ l2) k0 g = loadSegs ks img l2 k1 g1 := by
  induction l1 with
  | nil =>
    intro l2 k0 g k1 g1 h
    obtain ⟨h1, h2⟩ : k0 = k1 ∧ g = g1 := by simpa [loadSegs] using h
    subst h1
    subst h2
    simp
  | cons ph rest ih =>
    intro l2 k0 g k1 g1 h
    by_cases hskip : ph.p_type ≠ PT_LOAD ∨ ph.p_filesz = 0
    · simp only [loadSegs, if_pos hskip] at h
      rw [List.cons_append]
      simp only [loadSegs, if_pos hskip]
      exact ih l2 k0 g k1 g1 h
    · simp only [loadSegs, if_neg hskip] at h
      rw [List.cons_append]
      simp only [loadSegs, if_neg hskip]
      by_cases hseek : img.seekOk ph.p_offset = false
      · rw [if_pos hseek] at h
        simp at h
      · rw [if_neg hseek] at h
        rw [if_neg hseek]
        rcases hmo : (match ks with
                     | some s => checkedAdd s ph.p_paddr
                     | none => some ph.p_paddr) with _ | mo
        · simp only [hmo] at h
          simp at h
        · simp only [hmo] at h ⊢
          rcases hre : g.readExactFrom mo img ph.p_offset ph.p_filesz with _ | g3
          · simp only [hre] at h
            simp at h
          · simp only [hre] at h ⊢
            exact ih l2 _ g3 k1 g1 h

/-- When every header check passes, `load_kernel` proceeds to its segment
phase. -/
theorem load_kernel_eq_phase2 {gm : GuestMem} {ks : Option Nat} {img : ByteSource}
    {lo : Option Nat} {ehdr : Elf64_Ehdr}
    (hs0 : img.seekOk 0 = true) (hre : img.readEhdrAt 0 = some ehdr)
    (hmag : ¬ magicMismatch ehdr)
    (hdata : ehdr.identAt EI_DATA = ELFDATA2LSB)
    (hps : ehdr.e_phentsize = sizeofElf64Phdr)
    (hpo : sizeofElf64Ehdr ≤ ehdr.e_phoff)
    (hlo : ∀ lo2, lo = some lo2 → lo2 ≤ ehdr.e_entry) :
    load_kernel gm ks img lo = loadPhase2 gm ks img ehdr := by
  have hmag2 := hmag
  rw [magicMismatch] at hmag2
  rcases lo with _ | lo2
  · simp [load_kernel, hs0, hre, hmag2, hdata, hps, Nat.not_lt.mpr hpo]
  · have hent := hlo lo2 rfl
    simp [load_kernel, hs0, hre, hmag2, hdata, hps, Nat.not_lt.mpr hpo,
      Nat.not_lt.mpr hent]

/-- C6: the target guest address of a processed LOAD segment.  First
conjunct: with a base address, when the segment loop reaches a LOAD segment
with nonzero file size whose base-plus-physical-address wraps 64 bits, the
whole load aborts with `InvalidProgramHeaderAddress` (the memory being
whatever the earlier segments produced).  Second conjunct: on success every
processed segment's write landed at `target` — base-plus-physical-address
(checked, hence below `2^64`) with a base, the physical address verbatim
without one. -/
theorem load_kernel_segment_target_checked :
    (∀ (gm : GuestMem) (img : ByteSource) (lo : Option Nat) (ehdr : Elf64_Ehdr)
        (s : Nat) (pre : List Elf64_Phdr) (ph : Elf64_Phdr) (rest : List Elf64_Phdr)
        (kend1 : Nat) (g1 : GuestMem),
      img.seekOk 0 = true → img.readEhdrAt 0 = some ehdr →
      ¬ magicMismatch ehdr → ehdr.identAt EI_DATA = ELFDATA2LSB →
      ehdr.e_phentsize = sizeofElf64Phdr → sizeofElf64Ehdr ≤ ehdr.e_phoff →
      (∀ lo2, lo = some lo2 → lo2 ≤ ehdr.e_entry) →
      img.seekOk ehdr.e_phoff = true →
      img.readPhdrsAt ehdr.e_phoff ehdr.e_phnum = some (pre ++ ph :: rest) →
      loadSegs (some s) img pre 0 gm = Except.ok (kend1, g1) →
      ph.p_type = PT_LOAD → ph.p_filesz ≠ 0 → img.seekOk ph.p_offset = true →
      U64 ≤ s + ph.p_paddr →
      load_kernel gm (some s) img lo =
        (Except.error Error.InvalidProgramHeaderAddress, g1)) ∧
    (∀ (gm : GuestMem) (ks : Option Nat) (img : ByteSource) (lo : Option Nat)
        (entry kend : Nat) (g2 : GuestMem),
      load_kernel gm ks img lo = (Except.ok (entry, kend), g2) →
      ∃ ehdr phdrs, img.readEhdrAt 0 = some ehdr ∧
        img.readPhdrsAt ehdr.e_phoff ehdr.e_phnum = some phdrs ∧
        g2.log = gm.log ++ segLog ks img phdrs ∧
        (∀ p ∈ phdrs.filter eligible, ∀ s, ks = some s → s + p.p_paddr < U64)) := by
  constructor
  · intro gm img lo ehdr s pre ph rest kend1 g1 hs0 hre hmag hdata hps hpo hlo hs1
      hrp hpre htype hfs hseek hwrap
    rw [load_kernel_eq_phase2 hs0 hre hmag hdata hps hpo hlo]
    have happ := loadSegs_ok_append (some s) img pre (ph :: rest) 0 gm kend1 g1 hpre
    have hstep : loadSegs (some s) img (ph :: rest) kend1 g1 =
        Except.error (Error.InvalidProgramHeaderAddress, g1) := by
      simp only [loadSegs]
      rw [if_neg (by simp [htype, hfs] : ¬(ph.p_type ≠ PT_LOAD ∨ ph.p_filesz = 0))]
      rw [if_neg (by simp [hseek])]
      have hnone : checkedAdd s ph.p_paddr = none := by
        simp [checkedAdd, Nat.not_lt.mpr hwrap]
      simp [hnone]
    simp [loadPhase2, hs1, hrp, happ, hstep]
  · intro gm ks img lo entry kend g2 h
    obtain ⟨ehdr, hre, _, _, _, _, _, phdrs, hrp, _, hls⟩ := load_kernel_ok_inv h
    obtain ⟨_, e2, _, e4⟩ := loadSegs_ok_spec ks img phdrs 0 gm kend g2 hls
    exact ⟨ehdr, phdrs, hre, hrp, e2, e4⟩

theorem load_kernel_segment_target_checked_witness :
    load_kernel gmEx (some (U64 - 1)) imgEx none =
      (Except.error Error.InvalidProgramHeaderAddress, gmEx) :=
  load_kernel_segment_target_checked.1 gmEx imgEx none ehdrOk (U64 - 1) [] phA [phB]
    0 gmEx rfl rfl (by decide) (by decide) (by decide) (by decide)
    (fun lo2 h => Option.noConfusion h) rfl rfl rfl (by decide) (by decide) rfl
    (by simp [U64, phA])

/-! ### The loader depends only on the behavioural part of guest memory -/

/-- Erase the ghost log from a segment-loop result. -/
def coreResult : Except (Error × GuestMem) (Nat × GuestMem) →
    Except (Error × Nat × List Nat) (Nat × Nat × List Nat)
  | .error (e, g) => .error (e, g.core)
  | .ok (k, g) => .ok (k, g.core)

theorem writeSlice_core {g1 g2 : GuestMem} (hc : g1.core = g2.core)
    (addr : Nat) (bs : List Nat) :
    (g1.writeSlice addr bs).map GuestMem.core =
      (g2.writeSlice addr bs).map GuestMem.core := by
  have hs : g1.start = g2.start := congrArg Prod.fst hc
  have hct : g1.contents = g2.contents := congrArg Prod.snd hc
  unfold GuestMem.writeSlice GuestMem.endAddr
  rw [hs, hct]
  by_cases hcond : g2.start ≤ addr ∧ addr + bs.length ≤ g2.start + g2.contents.length
  · rw [if_pos hcond, if_pos hcond]
    simp [GuestMem.core]
  · rw [if_neg hcond, if_neg hcond]

theorem readExactFrom_core {g1 g2 : GuestMem} (hc : g1.core = g2.core)
    (addr : Nat) (img : ByteSource) (off count : Nat) :
    (g1.readExactFrom addr img off count).map GuestMem.core =
      (g2.readExactFrom addr img off count).map GuestMem.core := by
  unfold GuestMem.readExactFrom
  rcases img.readBytesAt off count with _ | bs
  · rfl
  · exact writeSlice_core hc addr bs

theorem loadSegs_core (ks : Option Nat) (img : ByteSource) (phdrs : List Elf64_Phdr) :
    ∀ k0 (g1 g2 : GuestMem), g1.core = g2.core →
      coreResult (loadSegs ks img phdrs k0 g1) =
        coreResult (loadSegs ks img phdrs k0 g2) := by
  induction phdrs with
  | nil =>
    intro k0 g1 g2 hc
    simp [loadSegs, coreResult, hc]
  | cons ph rest ih =>
    intro k0 g1 g2 hc
    by_cases hskip : ph.p_type ≠ PT_LOAD ∨ ph.p_filesz = 0
    · simp only [loadSegs, if_pos hskip]
      exact ih k0 g1 g2 hc
    · simp only [loadSegs, if_neg hskip]
      by_cases hseek : img.seekOk ph.p_offset = false
      · rw [if_pos hseek, if_pos hseek]
        simp [coreResult, hc]
      · rw [if_neg hseek, if_neg hseek]
        rcases hmo : (match ks with
                      | some s => checkedAdd s ph.p_paddr
                      | none => some ph.p_paddr) with _ | mo
        · simp only [hmo]
          simp [coreResult, hc]
        · simp only [hmo]
          have hr := readExactFrom_core hc mo img ph.p_offset ph.p_filesz
          rcases h1 : g1.readExactFrom mo img ph.p_offset ph.p_filesz with _ | g3
          · rcases h2 : g2.readExactFrom mo img ph.p_offset ph.p_filesz with _ | g4
            · simp only [h1, h2]
              simp [coreResult, hc]
            · rw [h1, h2] at hr
              simp at hr
          · rcases h2 : g2.readExactFrom mo img ph.p_offset ph.p_filesz with _ | g4
            · rw [h1, h2] at hr
              simp at hr
            · simp only [h1, h2]
              rw [h1, h2] at hr
              simp only [Option.map_some', Option.some.injEq] at hr
              exact ih _ g3 g4 hr

theorem loadPhase2_core {g1 g2 : GuestMem} (ks : Option Nat) (img : ByteSource)
    (ehdr : Elf64_Ehdr) (hc : g1.core = g2.core) :
    (loadPhase2 g1 ks img ehdr).1 = (loadPhase2 g2 ks img ehdr).1 ∧
      (loadPhase2 g1 ks img ehdr).2.core = (loadPhase2 g2 ks img ehdr).2.core := by
  simp only [loadPhase2]
  by_cases hs1 : img.seekOk ehdr.e_phoff = false
  · rw [if_pos hs1, if_pos hs1]
    exact ⟨rfl, hc⟩
  · rw [if_neg hs1, if_neg hs1]
    rcases img.readPhdrsAt ehdr.e_phoff ehdr.e_phnum with _ | phdrs
    · exact ⟨rfl, hc⟩
    · have hcr := loadSegs_core ks img phdrs 0 g1 g2 hc
      rcases h1 : loadSegs ks img phdrs 0 g1 with ⟨e1, gg1⟩ | ⟨k1, gg1⟩
      · rcases h2 : loadSegs ks img phdrs 0 g2 with ⟨e2, gg2⟩ | ⟨k2, gg2⟩
        · rw [h1, h2] at hcr
          simp only [coreResult] at hcr
          obtain ⟨he, hg⟩ : e1 = e2 ∧ gg1.core = gg2.core := by simpa using hcr
          subst he
          simp only [h1, h2]
          exact ⟨trivial, hg⟩
        · rw [h1, h2] at hcr
          simp [coreResult] at hcr
      · rcases h2 : loadSegs ks img phdrs 0 g2 with ⟨e2, gg2⟩ | ⟨k2, gg2⟩
        · rw [h1, h2] at hcr
          simp [coreResult] at hcr
        · rw [h1, h2] at hcr
          simp only [coreResult] at hcr
          obtain ⟨hk, hg⟩ : k1 = k2 ∧ gg1.core = gg2.core := by simpa using hcr
          subst hk
          simp only [h1, h2]
          exact ⟨trivial, hg⟩

theorem load_kernel_core {g1 g2 : GuestMem} (ks : Option Nat) (img : ByteSource)
    (lo : Option Nat) (hc : g1.core = g2.core) :
    (load_kernel g1 ks img lo).1 = (load_kernel g2 ks img lo).1 ∧
      (load_kernel g1 ks img lo).2.core = (load_kernel g2 ks img lo).2.core := by
  by_cases hs0 : img.seekOk 0 = false
  · simp [load_kernel, hs0, hc]
  · rcases hre : img.readEhdrAt 0 with _ | ehdr
    · simp [load_kernel, hs0, hre, hc]
    · by_cases hmag : ehdr.identAt EI_MAG0 ≠ ELFMAG0 ∨ ehdr.identAt EI_MAG1 ≠ ELFMAG1
          ∨ ehdr.identAt EI_MAG2 ≠ ELFMAG2 ∨ ehdr.identAt EI_MAG3 ≠ ELFMAG3
      · simp [load_kernel, hs0, hre, hmag, hc]
      · by_cases hdata : ehdr.identAt EI_DATA = ELFDATA2LSB
        swap
        · simp [load_kernel, hs0, hre, hmag, hdata, hc]
        by_cases hps : ehdr.e_phentsize = sizeofElf64Phdr
        swap
        · simp [load_kernel, hs0, hre, hmag, hdata, hps, hc]
        by_cases hpo : ehdr.e_phoff < sizeofElf64Ehdr
        · simp [load_kernel, hs0, hre, hmag, hdata, hps, hpo, hc]
        rcases lo with _ | lo2
        · have hp2 := loadPhase2_core ks img ehdr hc
          simpa [load_kernel, hs0, hre, hmag, hdata, hps, hpo] using hp2
        · by_cases hent : ehdr.e_entry < lo2
          · simp [load_kernel, hs0, hre, hmag, hdata, hps, hpo, hent, hc]
          · have hp2 := loadPhase2_core ks img ehdr hc
            simpa [load_kernel, hs0, hre, hmag, hdata, hps, hpo, hent] using hp2

/-- C9: `load_kernel` is a pure function of its explicit inputs — no global
or hidden state.  Run on two independently-allocated guest memories with the
same base address and byte-identical (e.g. identically-sized, zero-filled)
contents, with the same image bytes, the same optional base and the same
optional lowest-entry floor, the two calls return identical values and leave
byte-identical guest memory contents. -/
theorem load_kernel_idempotent (g1 g2 : GuestMem) (ks : Option Nat)
    (img : ByteSource) (lo : Option Nat)
    (hstart : g1.start = g2.start) (hcont : g1.contents = g2.contents) :
    (load_kernel g1 ks img lo).1 = (load_kernel g2 ks img lo).1 ∧
      (load_kernel g1 ks img lo).2.contents =
        (load_kernel g2 ks img lo).2.contents := by
  have hc : g1.core = g2.core := by
    simp [GuestMem.core, hstart, hcont]
  obtain ⟨h1, h2⟩ := load_kernel_core ks img lo hc
  exact ⟨h1, congrArg Prod.snd h2⟩

theorem load_kernel_idempotent_witness :
    (load_kernel gmEx none imgEx none).1 =
        (load_kernel ⟨0, List.replicate 40 0, [(9, [9])]⟩ none imgEx none).1 ∧
      (load_kernel gmEx none imgEx none).2.contents =
        (load_kernel ⟨0, List.replicate 40 0, [(9, [9])]⟩ none imgEx none).2.contents :=
  load_kernel_idempotent gmEx ⟨0, List.replicate 40 0, [(9, [9])]⟩ none imgEx none
    rfl rfl

/-! ### Claim theorems for load_cmdline -/

/-- C8: a `load_cmdline` call whose content (excluding the terminator) has
zero length returns success and writes nothing to guest memory: the guest
memory, its contents and its write log included, is returned unchanged. -/
theorem load_cmdline_empty_noop (gm : GuestMem) (addr : Nat) (cmdline : List Nat)
    (h : cmdline.length = 0) :
    load_cmdline gm addr cmdline = (Except.ok (), gm) := by
  simp [load_cmdline, h]

theorem load_cmdline_empty_noop_witness :
    ([] : List Nat).length = 0 ∧
      load_cmdline ⟨0, [7, 7, 7, 7], []⟩ 2 [] = (Except.ok (), ⟨0, [7, 7, 7, 7], []⟩) :=
  ⟨rfl, load_cmdline_empty_noop ⟨0, [7, 7, 7, 7], []⟩ 2 [] rfl⟩

/-- C10: `load_cmdline` with zero-length content succeeds for every guest
address, including addresses at or beyond the guest memory region's end: the
zero-length early return precedes every bounds and overflow check, so no
validation of the target address is performed. -/
theorem load_cmdline_empty_no_validation (gm : GuestMem) (addr : Nat) :
    (load_cmdline gm addr []).1 = Except.ok () ∧
      (load_cmdline gm (gm.endAddr + addr) []).1 = Except.ok () := by
  constructor <;> simp [load_cmdline]

/-- C2: for non-empty content, `load_cmdline` fails with
`Error.CommandLineOverflow` iff the 64-bit addition `guest_addr + (len + 1)`
wraps or the end address exceeds the region end; an exact fit up to the region
end succeeds and one byte beyond fails with the overflow kind. -/
theorem load_cmdline_overflow_iff (g : GuestMem) (addr : Nat) (c : List Nat)
    (hc : c.length ≠ 0) (hl : c.length + 1 < U64) (he : g.endAddr < U64) :
    ((load_cmdline g addr c).1 = Except.error Error.CommandLineOverflow ↔
      U64 ≤ addr + c.length + 1 ∨ g.endAddr < addr + c.length + 1) ∧
    (g.start ≤ addr → addr + c.length + 1 = g.endAddr →
      (load_cmdline g addr c).1 = Except.ok ()) ∧
    (addr + c.length + 1 = g.endAddr + 1 →
      (load_cmdline g addr c).1 = Except.error Error.CommandLineOverflow) := by
  have hmod : (c.length + 1) % U64 = c.length + 1 := Nat.mod_eq_of_lt hl
  have hlen : (c ++ [0]).length = c.length + 1 := by simp
  refine ⟨?_, ?_, ?_⟩
  · by_cases hov : addr + (c.length + 1) < U64
    · by_cases hend : addr + (c.length + 1) > g.endAddr
      · simp [load_cmdline, checkedAdd, hc, hmod, hov, hend]
        omega
      · rcases hw : GuestMem.writeSlice g addr (c ++ [0]) with _ | g2 <;>
          simp [load_cmdline, checkedAdd, hc, hmod, hov, hend, hw] <;> omega
    · simp [load_cmdline, checkedAdd, hc, hmod, hov]
      omega
  · intro hs hfit
    have hov : addr + (c.length + 1) < U64 := by omega
    have hend : ¬ addr + (c.length + 1) > g.endAddr := by omega
    have hw : GuestMem.writeSlice g addr (c ++ [0]) =
        some { start := g.start,
               contents := writeList g.contents (addr - g.start) (c ++ [0]),
               log := g.log ++ [(addr, c ++ [0])] } := by
      rw [GuestMem.writeSlice, if_pos ⟨hs, by rw [hlen]; omega⟩]
    simp [load_cmdline, checkedAdd, hc, hmod, hov, hend, hw]
  · intro hone
    by_cases hov : addr + (c.length + 1) < U64
    · have hend : addr + (c.length + 1) > g.endAddr := by omega
      simp [load_cmdline, checkedAdd, hc, hmod, hov, hend]
    · simp [load_cmdline, checkedAdd, hc, hmod, hov]

/-- C1 counterexample: loading `imgEx` (two LOAD segments in decreasing
address order, occupying `[30,80)` then `[0,10)`) succeeds and returns 10 as
its second component — the end of the LAST processed segment — while the
maximum end address over all processed LOAD segments is 80.  The claim that
the second component equals that maximum is false. -/
theorem load_kernel_highest_cex :
    (load_kernel gmEx none imgEx none).1 = Except.ok (256, 10) ∧
    imgEx.readPhdrsAt ehdrOk.e_phoff ehdrOk.e_phnum = some [phA, phB] ∧
    processedEnds none [phA, phB] = [80, 10] ∧
    specMaxOccupied none [phA, phB] = 80 ∧
    (10 : Nat) ≠ 80 := by
  refine ⟨by rfl, rfl, by decide, by decide, by decide⟩

/-- C1 (amended): on every successful `load_kernel`, the second component of
the returned pair equals the target-address-plus-memory-size of the LAST
processed LOAD segment in file order (0 when no segment was processed) — the
maximum over all processed segments only when the ends are nondecreasing in
file order, the running value being overwritten, not maximised. -/
theorem load_kernel_highest_amended {gm : GuestMem} {ks : Option Nat}
    {img : ByteSource} {lo : Option Nat} {entry kend : Nat} {g2 : GuestMem}
    (h : load_kernel gm ks img lo = (Except.ok (entry, kend), g2)) :
    ∃ ehdr phdrs, img.readEhdrAt 0 = some ehdr ∧
      img.readPhdrsAt ehdr.e_phoff ehdr.e_phnum = some phdrs ∧
      kend = (processedEnds ks phdrs).getLastD 0 := by
  obtain ⟨ehdr, hre, _, _, _, _, _, phdrs, hrp, _, hls⟩ := load_kernel_ok_inv h
  obtain ⟨e1, _, _, _⟩ := loadSegs_ok_spec ks img phdrs 0 gm kend g2 hls
  exact ⟨ehdr, phdrs, hre, hrp, e1⟩

theorem load_kernel_highest_amended_witness :
    ∃ ehdr phdrs, imgEx.readEhdrAt 0 = some ehdr ∧
      imgEx.readPhdrsAt ehdr.e_phoff ehdr.e_phnum = some phdrs ∧
      (10 : Nat) = (processedEnds none phdrs).getLastD 0 := by
  have hconc : load_kernel gmEx none imgEx none =
      (Except.ok (256, 10), gmExFinal) := by rfl
  exact load_kernel_highest_amended hconc

/-- C7: exactly the program-header entries with type LOAD and nonzero file
size are copied into guest memory: on success the write log grows by one
entry per processed segment, in file order, at that segment's target address
(`segLog`), and both the copy list and the occupied-extent computation range
over `phdrs.filter eligible` alone, so every other entry contributes neither
a write nor an extent update. -/
theorem load_kernel_only_load_segments {gm : GuestMem} {ks : Option Nat}
    {img : ByteSource} {lo : Option Nat} {entry kend : Nat} {g2 : GuestMem}
    (h : load_kernel gm ks img lo = (Except.ok (entry, kend), g2)) :
    ∃ ehdr phdrs, img.readEhdrAt 0 = some ehdr ∧
      img.readPhdrsAt ehdr.e_phoff ehdr.e_phnum = some phdrs ∧
      g2.log = gm.log ++ segLog ks img phdrs ∧
      (segLog ks img phdrs).length = (phdrs.filter eligible).length ∧
      kend = (processedEnds ks phdrs).getLastD 0 ∧
      (processedEnds ks phdrs).length = (phdrs.filter eligible).length := by
  obtain ⟨ehdr, hre, _, _, _, _, _, phdrs, hrp, _, hls⟩ := load_kernel_ok_inv h
  obtain ⟨e1, e2, _, _⟩ := loadSegs_ok_spec ks img phdrs 0 gm kend g2 hls
  exact ⟨ehdr, phdrs, hre, hrp, e2, by simp [segLog], e1, by simp [processedEnds]⟩

theorem load_kernel_only_load_segments_witness :
    ∃ ehdr phdrs, imgMix.readEhdrAt 0 = some ehdr ∧
      imgMix.readPhdrsAt ehdr.e_phoff ehdr.e_phnum = some phdrs ∧
      gmExFinal.log = gmEx.log ++ segLog none imgMix phdrs ∧
      (segLog none imgMix phdrs).length = (phdrs.filter eligible).length := by
  have hconc : load_kernel gmEx none imgMix none =
      (Except.ok (256, 10), gmExFinal) := by rfl
  obtain ⟨ehdr, phdrs, h1, h2, h3, h4, _, _⟩ := load_kernel_only_load_segments hconc
  exact ⟨ehdr, phdrs, h1, h2, h3, h4⟩

theorem load_cmdline_overflow_iff_witness :
    ([65, 66, 67] : List Nat).length ≠ 0 ∧
      (load_cmdline ⟨0, [7, 7, 7, 7, 7, 7, 7], []⟩ 3 [65, 66, 67]).1 = Except.ok () := by
  have h := load_cmdline_overflow_iff ⟨0, [7, 7, 7, 7, 7, 7, 7], []⟩ 3 [65, 66, 67]
    (by decide) (by decide) (by decide)
  exact ⟨by decide, h.2.1 (by decide) (by decide)⟩

end LinuxLoader
